import Mathlib

/-!
Verification of the PB&J document-processing pipeline (pbj package:
sandwich.py, butter.py, jelly.py, toast.py) against its specification.

Python text values are embedded as `List Char` (one entry per code point,
matching Python string indexing and `len`). JSON-like Python values
(`Dict[str, Any]` trees) are embedded as the inductive `JValue`. Python
code that can raise is embedded in `Except PyError`. Functions whose only
side effects are `print` calls are embedded as pure functions with the
printing omitted.
-/

namespace PBJ

/-- Python exception kinds raised by the embedded code paths. -/
inductive PyError where
  | typeError
  | jsonDecodeError
deriving DecidableEq

/-- JSON-like Python value: the payloads that toast.py and the metadata
files manipulate. Object fields are kept in insertion order, as Python
dicts do. -/
inductive JValue where
  | null
  | bool (b : Bool)
  | num (n : Int)
  | str (s : String)
  | arr (xs : List JValue)
  | obj (fields : List (String × JValue))

/-- Python dict membership test on the embedded object fields. -/
def jHasKey : List (String × JValue) → String → Bool
  | [], _ => false
  | kv :: rest, k => kv.1 = k || jHasKey rest k

/-- Python dict lookup: first binding of the key (dicts have unique keys,
so first = only). -/
def jGet : List (String × JValue) → String → Option JValue
  | [], _ => none
  | kv :: rest, k => if kv.1 = k then some kv.2 else jGet rest k

/-- Python dict assignment `d[k] = v`: overwrite in place if the key is
present, else append, preserving insertion order. -/
def jSet : List (String × JValue) → String → JValue → List (String × JValue)
  | [], k, v => [(k, v)]
  | kv :: rest, k, v => if kv.1 = k then (k, v) :: rest else kv :: jSet rest k v

/-- Python `d.pop(k, None)`: remove the key's binding if present. -/
def jPop : List (String × JValue) → String → List (String × JValue)
  | [], _ => []
  | kv :: rest, k => if kv.1 = k then rest else kv :: jPop rest k

/-- Characters Python's `str.strip()` removes (ASCII whitespace). -/
def isPySpace (c : Char) : Bool :=
  c = ' ' || c = '\t' || c = '\n' || c = '\r' || c = '\x0b' || c = '\x0c'

/-- Python `str.strip()`: drop leading and trailing whitespace. -/
def pyStrip (l : List Char) : List Char :=
  ((l.dropWhile isPySpace).reverse.dropWhile isPySpace).reverse

/-- Python slice `s[a:b]` of a text (used to locate chunks inside the
original content). -/
def pySlice (l : List Char) (s e : Nat) : List Char :=
  (l.drop s).take (e - s)

/-- Python `text.split(sep)` for a single-character separator. -/
def split1 (a : Char) : List Char → List (List Char)
  | [] => [[]]
  | c :: rest =>
    if c = a then [] :: split1 a rest
    else
      match split1 a rest with
      | [] => [[c]]
      | p :: ps => (c :: p) :: ps

/-- Python `text.split(sep)` for a two-character separator (used for
both the paragraph separator and the sentence separator of the
chunker). Splitting is on leftmost non-overlapping occurrences, as in
Python. -/
def split2 (a b : Char) : List Char → List (List Char)
  | [] => [[]]
  | [c] => [[c]]
  | c :: d :: rest =>
    if c = a ∧ d = b then [] :: split2 a b rest
    else
      match split2 a b (d :: rest) with
      | [] => [[c]]
      | p :: ps => (c :: p) :: ps

/-- Python `sep.join(parts)` for the same two-character separator:
inverse of `split2`. -/
def join2 (a b : Char) : List (List Char) → List Char
  | [] => []
  | [p] => p
  | p :: q :: ps => p ++ a :: b :: join2 a b (q :: ps)

/-- Does `pat` occur as a prefix of `l`? -/
def prefixAt (pat l : List Char) : Bool :=
  l.take pat.length == pat

/-- Python `text.find(pat, start)`, fuel-based so that the kernel can
evaluate it: first index `i ≥ start` (with the whole pattern in bounds)
where `pat` occurs. `fuel = length + 1` always suffices. -/
def findSubAux (pat s : List Char) : Nat → Nat → Option Nat
  | 0, _ => none
  | fuel + 1, start =>
    if start + pat.length ≤ s.length then
      if prefixAt pat (s.drop start) then some start
      else findSubAux pat s fuel (start + 1)
    else none

/-- Python `text.find(pat, start)`. -/
def findSub (pat s : List Char) (start : Nat) : Option Nat :=
  findSubAux pat s (s.length + 1) start

/-- Python `pat in text` (substring containment). -/
def containsSub (pat s : List Char) : Bool :=
  (findSub pat s 0).isSome

/-! ### Butter._estimate_tokens and Butter._chunk_content (butter.py 468-596) -/

/-- butter.py `_estimate_tokens`: `len(text) // 4` plus a fixed prompt
overhead of 500 tokens. -/
def estimateTokens (text : List Char) : Nat :=
  text.length / 4 + 500

/-- The chunking loop's mutable state: emitted chunks, the current chunk
buffer and its running token estimate. -/
structure ChunkState where
  chunks : List (List Char)
  cur : List Char
  curTok : Nat

/-- butter.py `if current_chunk.strip(): chunks.append(current_chunk.strip())`. -/
def flushIfNonempty (st : ChunkState) : List (List Char) :=
  if pyStrip st.cur ≠ [] then st.chunks ++ [pyStrip st.cur] else st.chunks

/-- One iteration of the sentence-level fallback loop of
`_chunk_content` (butter.py 572-581). -/
def sentenceStep (maxTokens : Nat) (st : ChunkState) (sentence : List Char) : ChunkState :=
  let sentenceTokens := estimateTokens sentence
  if st.curTok + sentenceTokens > maxTokens then
    ⟨flushIfNonempty st, sentence, sentenceTokens⟩
  else
    ⟨st.chunks, if st.cur = [] then sentence else st.cur ++ '.' :: ' ' :: sentence,
      st.curTok + sentenceTokens⟩

/-- One iteration of the paragraph loop of `_chunk_content`
(butter.py 537-588). The `paragraph_has_table` computation is omitted:
in the source it only selects between warning messages and has no
effect on the produced chunks. -/
def paragraphStep (maxTokens : Nat) (st : ChunkState) (paragraph : List Char) : ChunkState :=
  let paragraphTokens := estimateTokens paragraph
  if st.curTok + paragraphTokens > maxTokens then
    let chunks := flushIfNonempty st
    if paragraphTokens > maxTokens then
      (split2 '.' ' ' paragraph).foldl (sentenceStep maxTokens) ⟨chunks, [], 0⟩
    else
      ⟨chunks, paragraph, paragraphTokens⟩
  else
    ⟨st.chunks, if st.cur = [] then paragraph else st.cur ++ '\n' :: '\n' :: paragraph,
      st.curTok + paragraphTokens⟩

/-- butter.py `_chunk_content`: return `[content]` unchanged when the
estimate fits, otherwise split on blank-line paragraphs, with a
sentence-level fallback for oversized paragraphs, and a final flush. -/
def chunkContent (content : List Char) (maxTokens : Nat) : List (List Char) :=
  if estimateTokens content ≤ maxTokens then [content]
  else
    flushIfNonempty
      ((split2 '\n' '\n' content).foldl (paragraphStep maxTokens) ⟨[], [], 0⟩)

/-- Character offset at which paragraph `i` of the paragraph list starts
inside the original content (mirrors the `char_pos` bookkeeping of
`_chunk_content`: each earlier paragraph contributes its length plus 2
for the blank-line separator). -/
def parStart (ps : List (List Char)) (i : Nat) : Nat :=
  ((ps.take i).map (fun p => p.length + 2)).sum

/-- One past the last character of paragraph `i`. -/
def parEnd (ps : List (List Char)) (i : Nat) : Nat :=
  parStart ps i + (ps.getD i []).length

/-- The claim's precondition on a well-formed table span inside the
content: a nonempty in-bounds character range that is delimited the way
a pipe table (first and last characters are the pipe) or an HTML table
(angle brackets of the open and close tags) is delimited. Only these
delimiting characters are needed: they make the endpoints
non-whitespace. -/
def tableSpan (content : List Char) (ts te : Nat) : Prop :=
  ts < te ∧ te ≤ content.length ∧
    ((content.getD ts ' ' = '<' ∧ content.getD (te - 1) ' ' = '>') ∨
     (content.getD ts ' ' = '|' ∧ content.getD (te - 1) ' ' = '|'))

/-- Invariant language for the table-protection proof: a character
offset avoiding the open interval `(ts, te)` lies on one of its
sides. -/
def sideOK (ts te n : Nat) : Prop := n ≤ ts ∨ te ≤ n

/-- A produced chunk is located at a slice of the original content whose
two boundaries lie outside the open protected interval. -/
def chunkOK (content : List Char) (ts te : Nat) (c : List Char) : Prop :=
  ∃ s e, s ≤ e ∧ e ≤ content.length ∧ c = pySlice content s e ∧
    sideOK ts te s ∧ sideOK ts te e

/-- All chunks of a list are well-located. -/
def chunksOK (content : List Char) (ts te : Nat) (L : List (List Char)) : Prop :=
  ∀ c ∈ L, chunkOK content ts te c

/-- Invariant of the chunking loops at input position `pos`: the current
chunk buffer is empty, or is the slice of the content that ends exactly
two characters (one separator) before `pos`, with both ends outside the
protected interval. -/
def curOK (content : List Char) (ts te pos : Nat) (cur : List Char) : Prop :=
  cur = [] ∨ ∃ s, s ≤ pos - 2 ∧ 2 ≤ pos ∧ pos - 2 ≤ content.length ∧
    cur = pySlice content s (pos - 2) ∧ sideOK ts te s ∧ sideOK ts te (pos - 2)

/-- Position of the protected table interval relative to the paragraphs
not yet processed: it is entirely behind the current position, or it
lies inside the `k`-th remaining paragraph, which fits the token
budget. -/
def restOK (maxTokens ts te pos : Nat) (rest : List (List Char)) : Prop :=
  te ≤ pos ∨ ∃ k, k < rest.length ∧
    pos + parStart rest k ≤ ts ∧
    te ≤ pos + parStart rest k + (rest.getD k []).length ∧
    estimateTokens (rest.getD k []) ≤ maxTokens

/-- End position (in the original content) of the text covered by a
sentence-fallback fold that starts at `spos`: two before `spos` when
there are no sentences, else the end of the last sentence. -/
def sentFoldEnd (spos : Nat) (ss : List (List Char)) : Nat :=
  match ss with
  | [] => spos - 2
  | _ => spos + (join2 '.' ' ' ss).length

/-! ### Butter._detect_table_boundaries (butter.py 481-511) -/

/-- End offset of the regex match `<table[^>]*>.*?</table>` attempted at
position `p`: the literal `<table`, then everything up to the next `>`
(the greedy `[^>]*` can only stop at the first `>`), then lazily up to
the earliest following `</table>`. -/
def htmlMatchEnd (s : List Char) (p : Nat) : Option Nat :=
  if prefixAt ("<table".toList) (s.drop p) then
    match findSub [ '>' ] s (p + 6) with
    | none => none
    | some q =>
      match findSub ("</table>".toList) s (q + 1) with
      | none => none
      | some r => some (r + 8)
  else none

/-- `re.finditer` over the HTML-table pattern: scan start positions left
to right, emit each non-overlapping match as `(start, end)` character
offsets, and resume at the match end. Fuel-based (one unit per start
position probed); `length + 1` fuel suffices because every step
advances the position. -/
def htmlMatchesAux (s : List Char) : Nat → Nat → List (Nat × Nat)
  | 0, _ => []
  | fuel + 1, pos =>
    if pos ≤ s.length then
      match htmlMatchEnd s pos with
      | some e => (pos, e) :: htmlMatchesAux s fuel e
      | none =>
        if pos = s.length then [] else htmlMatchesAux s fuel (pos + 1)
    else []

/-- All HTML-table matches of the content, as character offsets. -/
def htmlMatches (s : List Char) : List (Nat × Nat) :=
  htmlMatchesAux s (s.length + 1) 0

/-- butter.py 499: `'|' in line and line.strip().startswith('|') or
line.strip().endswith('|')` (Python precedence: the `and` binds
tighter). -/
def isPipeLine (line : List Char) : Bool :=
  (line.contains '|' && (pyStrip line).head? == some '|')
    || (pyStrip line).getLast? == some '|'

/-- The pipe-table run loop of `_detect_table_boundaries`
(butter.py 495-509): `i` is the index of the first line of `lines`;
`tableStart` holds the start index of an open run. Note the emitted
pairs are LINE indices, exactly as in the source. -/
def pipeRunsAux : List (List Char) → Nat → Option Nat → List (Nat × Nat)
  | [], i, tableStart =>
    match tableStart with
    | none => []
    | some s => [(s, i)]
  | line :: rest, i, tableStart =>
    if isPipeLine line then
      pipeRunsAux rest (i + 1) (match tableStart with | none => some i | some s => some s)
    else
      match tableStart with
      | some s => (s, i) :: pipeRunsAux rest (i + 1) none
      | none => pipeRunsAux rest (i + 1) none

/-- butter.py `_detect_table_boundaries`: HTML-table matches (character
offsets) followed by pipe-table runs (line indices), in the order the
source appends them. -/
def detectTableBoundaries (content : List Char) : List (Nat × Nat) :=
  htmlMatches content ++ pipeRunsAux (split1 '\n' content) 0 none

/-- Character offset at which line `i` of `lines` starts in the original
content (each earlier line contributes its length plus 1 for the
newline). Used only to state what the pipe-run pairs would have to be
if they were character offsets. -/
def lineStart (lines : List (List Char)) (i : Nat) : Nat :=
  ((lines.take i).map (fun l => l.length + 1)).sum

/-! ### Integrity guard (butter.py 183-191 and jelly.py 348-358) -/

/-- butter.py `_enhance_single_chunk` 183-191: if the model output
contains both HTML-comment markers, fall back to the chunk's original
markdown; otherwise keep the model output. -/
def butterIntegrityGuard (markdownContent enhancedContent : List Char) : List Char :=
  if containsSub ("<!--".toList) enhancedContent
      && containsSub ("-->".toList) enhancedContent then
    markdownContent
  else enhancedContent

/-- butter.py `EnhancedDocument` (the fields the integrity check reads). -/
structure EnhancedDocument where
  enhanced_content : List Char
  original_content : List Char
  filename : String
  enhancement_notes : List String

/-- jelly.py `process_enhanced_document_async` 348-358: choose the
content to process and the `enhancement_applied` flag. The function
always returns a content (the unit goes on to the extraction call; it
is not failed by the check). -/
def jellySelectContent (d : EnhancedDocument) : List Char × Bool :=
  if containsSub ("<!--".toList) d.enhanced_content
      && containsSub ("-->".toList) d.enhanced_content then
    (d.original_content, false)
  else
    (d.enhanced_content, true)

/-! ### Stage loop (butter.py 321-352 and jelly.py 509-537) -/

/-- A skip record `{filename, error}` as appended by the stage loops
(the wall-clock `timestamp` field is omitted from the embedding). -/
structure SkipRecord where
  filename : String
  error : String
deriving DecidableEq

/-- The per-file loop of `Butter._process_document_folder`
(butter.py 322-349), with the per-file processing abstracted as
`processFile` (`process_file` returns `none` exactly when the unit's
external call failed: the source catches the exception internally and
returns `None`). Successes and skip records are accumulated in file
order; a failure only appends a skip record and the loop continues. -/
def stageLoop {α : Type} (processFile : String → Option α) :
    List String → List α × List SkipRecord
  | [] => ([], [])
  | file :: rest =>
    match processFile file with
    | none =>
      let r := stageLoop processFile rest
      (r.1, ⟨file, "Enhancement failed - page skipped"⟩ :: r.2)
    | some doc =>
      let r := stageLoop processFile rest
      (doc :: r.1, r.2)

/-! ### Metadata store (butter.py 382-416 and jelly.py 605-649) -/

/-- Python `stage not in metadata["stages_completed"]` when the value is
a list: membership by `==`, which is `False` between a `str` and any
non-`str`. -/
def jStrMem (s : String) : List JValue → Bool
  | [] => false
  | JValue.str t :: rest => s = t || jStrMem s rest
  | _ :: rest => jStrMem s rest

/-- Number of occurrences of the string `s` among the elements of an
embedded list value (used to state that a stage name appears exactly
once in `stages_completed`). -/
def jStrCount (s : String) : List JValue → Nat
  | [] => 0
  | JValue.str t :: rest => (if s = t then 1 else 0) + jStrCount s rest
  | _ :: rest => jStrCount s rest

/-- The metadata mutation of `Butter._update_document_metadata`
(butter.py 391-408), applied to an already-loaded metadata object:
ensure `stages_completed` exists, append the stage name only when not
already present, and overwrite the `"<stage>_info"` entry. Raises
`TypeError` (as Python's `in` would) when `stages_completed` is bound
to a non-container value. The `info` payload is passed in already
built; its construction (timestamps, per-file summaries) has no effect
on the keys updated here. -/
def updateDocumentMetadata (m : List (String × JValue)) (stage : String)
    (info : JValue) : Except PyError (List (String × JValue)) :=
  let m1 := if jHasKey m "stages_completed" then m else jSet m "stages_completed" (JValue.arr [])
  match jGet m1 "stages_completed" with
  | some (JValue.arr stages) =>
    let m2 :=
      if jStrMem stage stages then m1
      else jSet m1 "stages_completed" (JValue.arr (stages ++ [JValue.str stage]))
    Except.ok (jSet m2 (stage ++ "_info") info)
  | _ => Except.error PyError.typeError

/-- The metadata mutation of `Jelly._update_document_metadata_cleaning`
(jelly.py 613-640): same discipline as the Butter version, then mark
the pipeline complete. -/
def updateDocumentMetadataCleaning (m : List (String × JValue)) (stage : String)
    (info : JValue) : Except PyError (List (String × JValue)) :=
  match updateDocumentMetadata m stage info with
  | Except.error e => Except.error e
  | Except.ok m2 =>
    Except.ok (jSet (jSet m2 "pipeline_complete" (JValue.bool true))
      "final_output_ready" (JValue.bool true))

/-- State of the per-document metadata backing file as the recording
step finds it. -/
inductive MetadataStore where
  | absent
  | corrupt
  | readable (m : List (String × JValue))

/-- `Butter._update_document_metadata` (butter.py 382-416) including its
interaction with the backing file: when the file is absent only a
warning is printed and nothing is written (`.ok none`); when the file
exists but is not parseable, `json.load` raises a JSON decode error
that the function does not catch; when it parses, the mutation is
applied and written back. -/
def updateDocumentMetadataRun (store : MetadataStore) (stage : String)
    (info : JValue) : Except PyError (Option (List (String × JValue))) :=
  match store with
  | MetadataStore.absent => Except.ok none
  | MetadataStore.corrupt => Except.error PyError.jsonDecodeError
  | MetadataStore.readable m =>
    match updateDocumentMetadata m stage info with
    | Except.error e => Except.error e
    | Except.ok m2 => Except.ok (some m2)

/-! ### Toast.convert_table (toast.py 47-83) -/

/-- Python `len(x)` on the embedded values (strings, lists and dicts are
sized; other values raise `TypeError`). -/
def pyLen : JValue → Except PyError Nat
  | JValue.str s => Except.ok s.length
  | JValue.arr xs => Except.ok xs.length
  | JValue.obj fs => Except.ok fs.length
  | _ => Except.error PyError.typeError

/-- Python iteration `for x in v`: lists yield elements, strings yield
one-character strings, dicts yield keys; other values raise. -/
def pyIterElems : JValue → Except PyError (List JValue)
  | JValue.str s => Except.ok (s.toList.map (fun c => JValue.str (String.mk [c])))
  | JValue.arr xs => Except.ok xs
  | JValue.obj fs => Except.ok (fs.map (fun kv => JValue.str kv.1))
  | _ => Except.error PyError.typeError

/-- A value used as a dict key. JSON objects carry string keys, so the
embedding accepts strings and rejects everything else (unhashable
values raise `TypeError` in Python too; hashable non-strings cannot
appear in the JSON pipeline data). -/
def jKeyOfValue : JValue → Except PyError String
  | JValue.str s => Except.ok s
  | _ => Except.error PyError.typeError

/-- Python `dict(pairs)`: left-to-right insertion with overwrite on a
repeated key; a non-string key raises. -/
def dictOfPairsAux (acc : List (String × JValue)) :
    List (JValue × JValue) → Except PyError (List (String × JValue))
  | [] => Except.ok acc
  | kv :: rest =>
    match jKeyOfValue kv.1 with
    | Except.error e => Except.error e
    | Except.ok k => dictOfPairsAux (jSet acc k kv.2) rest

/-- Python `dict(pairs)`. -/
def dictOfPairs (pairs : List (JValue × JValue)) :
    Except PyError (List (String × JValue)) :=
  dictOfPairsAux [] pairs

/-- The per-row conversion of `Toast.convert_table` (toast.py 69-76):
a row that is a list of exactly `len(columns)` cells becomes
`dict(zip(columns, row))`; any other row is kept as is. -/
def convertRow (columns : JValue) (row : JValue) : Except PyError JValue :=
  match row with
  | JValue.arr cells =>
    match pyLen columns with
    | Except.error e => Except.error e
    | Except.ok n =>
      if cells.length = n then
        match pyIterElems columns with
        | Except.error e => Except.error e
        | Except.ok keys =>
          match dictOfPairs (keys.zip cells) with
          | Except.error e => Except.error e
          | Except.ok d => Except.ok (JValue.obj d)
      else Except.ok row
  | _ => Except.ok row

/-- The `for row in rows` loop of `convert_table` (toast.py 69-76):
convert each row in order, propagating any raised error. -/
def convertRows (columns : JValue) : List JValue → Except PyError (List JValue)
  | [] => Except.ok []
  | row :: rest =>
    match convertRow columns row with
    | Except.error e => Except.error e
    | Except.ok r =>
      match convertRows columns rest with
      | Except.error e => Except.error e
      | Except.ok rs => Except.ok (r :: rs)

/-- toast.py `convert_table`: non-dicts and dicts lacking a `columns` or
`rows` key pass through unchanged; otherwise every row is converted,
the `rows` entry is overwritten and the `columns` entry removed. -/
def convertTable (table_data : JValue) : Except PyError JValue :=
  match table_data with
  | JValue.obj fields =>
    if jHasKey fields "columns" = false ∨ jHasKey fields "rows" = false then
      Except.ok table_data
    else
      let columns := (jGet fields "columns").getD JValue.null
      let rows := (jGet fields "rows").getD JValue.null
      match pyIterElems rows with
      | Except.error e => Except.error e
      | Except.ok rowList =>
        match convertRows columns rowList with
        | Except.error e => Except.error e
        | Except.ok converted =>
          Except.ok (JValue.obj (jPop (jSet fields "rows" (JValue.arr converted)) "columns"))
  | _ => Except.ok table_data

/-- Modelled from the spec's words for comparison with `convertRow`:
zip the row against the columns positionally; a row whose length does
not match the column count passes through unchanged. -/
def reshapeRowSpec (cs : List String) (r : JValue) : JValue :=
  match r with
  | JValue.arr cells =>
    if cells.length = cs.length then JValue.obj (cs.zip cells) else r
  | _ => r

/-- Well-formedness of an embedded value at the top level: Python dicts
cannot carry a duplicated key, so an `obj` stands for a Python dict
only when its field names are distinct. -/
def topKeysNodup : JValue → Prop
  | JValue.obj fields => (fields.map Prod.fst).Nodup
  | _ => True

/-! ### Sandwich.process and the skip-butter branch (sandwich.py 81-232) -/

/-- Parameter names of `Jelly._process_document_folder` (jelly.py 483). -/
def jellyProcessDocumentFolderParams : List String :=
  ["self", "document_folder_path"]

/-- Keyword arguments `Sandwich.process` passes to that method
(sandwich.py 117). -/
def sandwichJellyCallKeywords : List String :=
  ["skip_butter"]

/-- Python call binding: a keyword argument must name a declared
parameter, otherwise the call raises `TypeError`. -/
def keywordsAccepted (params keywords : List String) : Bool :=
  keywords.all params.contains

/-- How stage 3 of a `Sandwich.process` run terminates. -/
inductive StageStatus where
  | completed
  | raisedTypeError
  | raisedFileNotFound
deriving DecidableEq

/-- Observable shape of one `Sandwich.process` run: whether the Butter
stage was entered, how the Jelly stage call terminated, and whether the
orchestrator's `except` turned the run into a structured FAILED result. -/
structure PipelineRun where
  butterRan : Bool
  jellyStatus : StageStatus
  pipelineFailed : Bool
deriving DecidableEq

/-- Control flow of `Sandwich.process` (sandwich.py 91-225) around the
`skip_butter` flag, after a successful parse stage: stage 2 runs only
when the flag is off (creating `02_enhanced_markdown`); stage 3 invokes
`Jelly._process_document_folder` with the keyword `skip_butter`
(sandwich.py 117) - if the keyword is not a declared parameter the call
raises `TypeError`; otherwise the method requires the
`02_enhanced_markdown` folder (jelly.py 493-495) and raises
`FileNotFoundError` when it is missing. Any exception is caught by the
orchestrator's `except` (sandwich.py 203) and returned as a FAILED
result. -/
def sandwichProcessModel (skipButter : Bool) : PipelineRun :=
  let foldersPresent :=
    if skipButter then ["01_parsed_markdown"]
    else ["01_parsed_markdown", "02_enhanced_markdown"]
  let jellyStatus :=
    if keywordsAccepted jellyProcessDocumentFolderParams sandwichJellyCallKeywords = false then
      StageStatus.raisedTypeError
    else if foldersPresent.contains "02_enhanced_markdown" = false then
      StageStatus.raisedFileNotFound
    else
      StageStatus.completed
  ⟨!skipButter, jellyStatus,
    match jellyStatus with
    | StageStatus.completed => false
    | _ => true⟩

/-!
## Theorems

Claim theorems, their helper lemmas, and witnesses.
-/

/-- C1: the claim asserts that with the skip-butter flag set, the
Enhance stage is elided and the Extract (Jelly) stage runs to
completion as in a normal run. The code elides the Enhance stage but
the Extract stage never completes: `Sandwich.process` passes the
keyword argument `skip_butter` to `Jelly._process_document_folder`
(sandwich.py 117), which declares no such parameter (jelly.py 483), so
the call raises `TypeError` and the orchestrator returns a structured
FAILED result. (Were the keyword accepted, the model shows the stage
would still raise `FileNotFoundError`: skipping Butter leaves the
required `02_enhanced_markdown` folder uncreated, jelly.py 493-495.) -/
theorem c1_skip_butter_pipeline_fails :
    (sandwichProcessModel true).butterRan = false ∧
    (sandwichProcessModel true).jellyStatus = StageStatus.raisedTypeError ∧
    (sandwichProcessModel true).pipelineFailed = true := by
  decide

/-- C3: whenever the token estimate `len(text) / 4 + 500` is at most
`maxTokens`, `_chunk_content` returns exactly one chunk equal to the
text, unchanged. -/
theorem c3_no_chunk_needed (content : List Char) (maxTokens : Nat)
    (h : estimateTokens content ≤ maxTokens) :
    chunkContent content maxTokens = [content] := by
  simp [chunkContent, h]

/-- Witness for C3 at a concrete input. -/
theorem c3_no_chunk_needed_witness :
    estimateTokens ("hello world".toList) ≤ 600 ∧
      chunkContent ("hello world".toList) 600 = ["hello world".toList] :=
  ⟨by decide, c3_no_chunk_needed ("hello world".toList) 600 (by decide)⟩

/-- C5: the claim asserts that both kinds of detected table span are
reported as character offsets over the original text. On the input
`"xx\n|a|"` the pipe-table run (the single line `"|a|"`) is reported as
the pair `(1, 2)`: these are LINE indices (line 1 up to line 2), not
character offsets - as a character range the run starts at offset 3
(`lineStart` of line 1) and the pair `(1, 2)` would denote the middle
of the first line. Only the HTML-table matches are character offsets. -/
theorem c5_pipe_runs_are_line_indices :
    detectTableBoundaries ("xx\n|a|".toList) = [(1, 2)] ∧
    lineStart (split1 '\n' ("xx\n|a|".toList)) 1 = 3 := by
  decide

/-- C6: when the model output contains both HTML-comment markers, the
Butter integrity check replaces it with the chunk's original markdown,
unchanged, and the Jelly-side check processes the original content with
`enhancement_applied = false`; neither path fails the unit (both return
a content for the pipeline to continue with). -/
theorem c6_integrity_fallback (fallback candidate orig : List Char)
    (fn : String) (notes : List String)
    (h1 : containsSub ("<!--".toList) candidate = true)
    (h2 : containsSub ("-->".toList) candidate = true) :
    butterIntegrityGuard fallback candidate = fallback ∧
    jellySelectContent ⟨candidate, orig, fn, notes⟩ = (orig, false) := by
  constructor
  · dsimp only [butterIntegrityGuard]
    rw [h1, h2]
    simp
  · dsimp only [jellySelectContent]
    rw [h1, h2]
    simp

/-- Witness for C6 at a concrete candidate containing the sentinel. -/
theorem c6_integrity_fallback_witness :
    containsSub ("<!--".toList) ("a<!-- note -->b".toList) = true ∧
    butterIntegrityGuard ("orig".toList) ("a<!-- note -->b".toList) = "orig".toList ∧
    jellySelectContent ⟨"a<!-- note -->b".toList, "orig".toList, "p", []⟩ =
      ("orig".toList, false) :=
  ⟨by decide,
    (c6_integrity_fallback ("orig".toList) ("a<!-- note -->b".toList) ("orig".toList)
      "p" [] (by decide) (by decide)).1,
    (c6_integrity_fallback ("orig".toList) ("a<!-- note -->b".toList) ("orig".toList)
      "p" [] (by decide) (by decide)).2⟩

/-- C8 counterexample: the claim asserts the stage-recording operation
never raises when the backing store is unreadable or corrupt. When the
metadata file exists but is not parseable, `json.load` raises a JSON
decode error that `_update_document_metadata` does not catch
(butter.py 386-389, jelly.py 609-611): the recording step errors
instead of proceeding. -/
theorem c8_corrupt_metadata_raises :
    updateDocumentMetadataRun MetadataStore.corrupt "enhancement" (JValue.obj []) =
      Except.error PyError.jsonDecodeError := rfl

/-- C8 amended: only a MISSING metadata file is tolerated - the
operation logs a warning and proceeds without state tracking; a file
that exists but is unparseable raises a JSON decode error out of the
recording step (which the stage does not catch). -/
theorem c8_missing_metadata_tolerated (stage : String) (info : JValue) :
    updateDocumentMetadataRun MetadataStore.absent stage info = Except.ok none ∧
    updateDocumentMetadataRun MetadataStore.corrupt stage info =
      Except.error PyError.jsonDecodeError :=
  ⟨rfl, rfl⟩

/-- A stage loop over units that all succeed produces no skip records
and one output per unit. -/
theorem stageLoop_all_ok {α : Type} (f : String → Option α) (l : List String)
    (h : ∀ v ∈ l, f v ≠ none) :
    (stageLoop f l).2 = [] ∧ (stageLoop f l).1.length = l.length := by
  induction l with
  | nil => exact ⟨rfl, rfl⟩
  | cons v rest ih =>
    have hv := h v (by simp)
    have hrest := ih (fun w hw => h w (by simp [hw]))
    match hfv : f v with
    | none => exact absurd hfv hv
    | some d =>
      simp only [stageLoop, hfv]
      exact ⟨hrest.1, by simp [hrest.2]⟩

/-- C2: if exactly one unit `k` fails its external call (the per-unit
processor returns `None` exactly for `k`), the stage loop returns
exactly `N - 1` successes and exactly one skip record naming `k`, and
the successes are identical to those of a run over the unit list with
`k` removed (which produces no skips at all). -/
theorem c2_skip_isolation {α : Type} (f : String → Option α) (files : List String)
    (k : String) (hcount : files.count k = 1)
    (hf : ∀ u ∈ files, (f u = none ↔ u = k)) :
    (stageLoop f files).1.length + 1 = files.length ∧
    (stageLoop f files).2 = [⟨k, "Enhancement failed - page skipped"⟩] ∧
    stageLoop f (files.erase k) = ((stageLoop f files).1, []) := by
  induction files with
  | nil => simp at hcount
  | cons u rest ih =>
    by_cases hu : u = k
    · subst hu
      have hfk : f u = none := (hf u (by simp)).2 rfl
      have hzero : rest.count u = 0 := by
        have := hcount
        simp [List.count_cons] at this
        exact this
      have hnotmem : u ∉ rest := by
        intro hmem
        have := List.count_pos_iff.2 hmem
        omega
      have hrest_ok : ∀ v ∈ rest, f v ≠ none := by
        intro v hv hnone
        have hvk := (hf v (by simp [hv])).1 hnone
        exact hnotmem (hvk ▸ hv)
      have hall := stageLoop_all_ok f rest hrest_ok
      refine ⟨?_, ?_, ?_⟩
      · simp only [stageLoop, hfk]
        simp [hall.2]
      · simp only [stageLoop, hfk]
        simp [hall.1]
      · rw [List.erase_cons_head]
        simp only [stageLoop, hfk]
        exact Prod.ext rfl hall.1
    · have hfu : f u ≠ none := fun hnone => hu ((hf u (by simp)).1 hnone)
      have hcount' : rest.count k = 1 := by
        have := hcount
        simp [List.count_cons, Ne.symm hu] at this
        simpa using this
      have hf' : ∀ v ∈ rest, (f v = none ↔ v = k) :=
        fun v hv => hf v (by simp [hv])
      have ihr := ih hcount' hf'
      match hfv : f u with
      | none => exact absurd hfv hfu
      | some d =>
        refine ⟨?_, ?_, ?_⟩
        · simp only [stageLoop, hfv]
          simp
          omega
        · simp only [stageLoop, hfv]
          exact ihr.2.1
        · rw [List.erase_cons_tail]
          · simp only [stageLoop, hfv, ihr.2.2]
          · exact fun h => hu (by simpa using h)

/-- Witness for C2: three units of which exactly the middle one fails. -/
theorem c2_skip_isolation_witness :
    (stageLoop (fun u => if u = "b" then none else some u) ["a", "b", "c"]).1.length + 1 =
      (["a", "b", "c"] : List String).length ∧
    (stageLoop (fun u => if u = "b" then none else some u) ["a", "b", "c"]).2 =
      [⟨"b", "Enhancement failed - page skipped"⟩] ∧
    stageLoop (fun u => if u = "b" then none else some u) ((["a", "b", "c"] : List String).erase "b") =
      ((stageLoop (fun u => if u = "b" then none else some u) ["a", "b", "c"]).1, []) :=
  c2_skip_isolation (fun u => if u = "b" then none else some u) ["a", "b", "c"] "b"
    (by decide) (by decide)

/-- Key presence agrees with lookup success. -/
theorem jHasKey_eq_isSome (m : List (String × JValue)) (k : String) :
    jHasKey m k = (jGet m k).isSome := by
  induction m with
  | nil => rfl
  | cons kv rest ih =>
    by_cases h : kv.1 = k
    · simp [jHasKey, jGet, h]
    · simp [jHasKey, jGet, h, ih]

/-- Looking up the key just set returns the new value. -/
theorem jGet_jSet_self (m : List (String × JValue)) (k : String) (v : JValue) :
    jGet (jSet m k v) k = some v := by
  induction m with
  | nil => simp [jSet, jGet]
  | cons kv rest ih =>
    by_cases h : kv.1 = k
    · simp [jSet, jGet, h]
    · simp [jSet, jGet, h, ih]

/-- Setting one key leaves lookups of other keys unchanged. -/
theorem jGet_jSet_ne (m : List (String × JValue)) (k k' : String) (v : JValue)
    (h : k' ≠ k) : jGet (jSet m k v) k' = jGet m k' := by
  induction m with
  | nil => simp [jSet, jGet, Ne.symm h]
  | cons kv rest ih =>
    by_cases hk : kv.1 = k
    · subst hk
      simp [jSet, jGet, Ne.symm h]
    · by_cases hk' : kv.1 = k'
      · simp [jSet, jGet, hk, hk', h]
      · simp [jSet, jGet, hk, hk', ih]

/-- `jStrMem` is membership of the corresponding string value. -/
theorem jStrMem_iff_mem (s : String) (l : List JValue) :
    jStrMem s l = true ↔ JValue.str s ∈ l := by
  induction l with
  | nil => simp [jStrMem]
  | cons v rest ih =>
    cases v with
    | str t =>
      by_cases h : s = t
      · subst h; simp [jStrMem]
      · simp [jStrMem, h, ih, Ne.symm h]
    | null => simp [jStrMem, ih]
    | bool b => simp [jStrMem, ih]
    | num n => simp [jStrMem, ih]
    | arr xs => simp [jStrMem, ih]
    | obj fs => simp [jStrMem, ih]

/-- `jStrMem` distributes over append. -/
theorem jStrMem_append (s : String) (l1 l2 : List JValue) :
    jStrMem s (l1 ++ l2) = (jStrMem s l1 || jStrMem s l2) := by
  induction l1 with
  | nil => simp [jStrMem]
  | cons v rest ih =>
    cases v with
    | str t => simp [jStrMem, ih, Bool.or_assoc]
    | null => simp [jStrMem, ih]
    | bool b => simp [jStrMem, ih]
    | num n => simp [jStrMem, ih]
    | arr xs => simp [jStrMem, ih]
    | obj fs => simp [jStrMem, ih]

/-- A string value absent from the list is counted zero times. -/
theorem jStrCount_eq_zero (s : String) (l : List JValue)
    (h : JValue.str s ∉ l) : jStrCount s l = 0 := by
  induction l with
  | nil => rfl
  | cons v rest ih =>
    have hrest : JValue.str s ∉ rest := fun hm => h (by simp [hm])
    cases v with
    | str t =>
      have hne : s ≠ t := fun he => h (by simp [he])
      simp [jStrCount, hne, ih hrest]
    | null => simpa [jStrCount] using ih hrest
    | bool b => simpa [jStrCount] using ih hrest
    | num n => simpa [jStrCount] using ih hrest
    | arr xs => simpa [jStrCount] using ih hrest
    | obj fs => simpa [jStrCount] using ih hrest

/-- A string value present in the list is counted at least once. -/
theorem jStrCount_pos (s : String) (l : List JValue)
    (h : JValue.str s ∈ l) : 1 ≤ jStrCount s l := by
  induction l with
  | nil => simp at h
  | cons v rest ih =>
    by_cases hv : v = JValue.str s
    · subst hv
      simp [jStrCount]
    · have hrest : JValue.str s ∈ rest := by
        rcases List.mem_cons.1 h with h1 | h1
        · exact absurd h1.symm hv
        · exact h1
      cases v with
      | str t =>
        have hr := ih hrest
        by_cases he : s = t
        · simp [jStrCount, he]
        · simpa [jStrCount, he] using hr
      | null => simpa [jStrCount] using ih hrest
      | bool b => simpa [jStrCount] using ih hrest
      | num n => simpa [jStrCount] using ih hrest
      | arr xs => simpa [jStrCount] using ih hrest
      | obj fs => simpa [jStrCount] using ih hrest

/-- On a duplicate-free list every string value is counted at most once. -/
theorem jStrCount_le_one (s : String) (l : List JValue)
    (h : l.Nodup) : jStrCount s l ≤ 1 := by
  induction l with
  | nil => simp [jStrCount]
  | cons v rest ih =>
    have hrest := ih (List.Nodup.of_cons h)
    cases v with
    | str t =>
      by_cases he : s = t
      · subst he
        have hnot : JValue.str s ∉ rest := (List.nodup_cons.1 h).1
        simp [jStrCount, jStrCount_eq_zero s rest hnot]
      · simpa [jStrCount, he] using hrest
    | null => simpa [jStrCount] using hrest
    | bool b => simpa [jStrCount] using hrest
    | num n => simpa [jStrCount] using hrest
    | arr xs => simpa [jStrCount] using hrest
    | obj fs => simpa [jStrCount] using hrest

/-- A string obtained by appending the suffix `"_info"` differs from any
string whose last five characters are not `"_info"`. -/
theorem append_info_ne (stage t : String)
    (h : t.data.drop (t.data.length - 5) ≠ "_info".data) :
    stage ++ "_info" ≠ t := by
  intro he
  have hd : stage.data ++ "_info".data = t.data := by
    have h1 := congrArg String.data he
    simpa using h1
  have h5 : ("_info".data).length = 5 := rfl
  have hlen : stage.data.length + 5 = t.data.length := by
    have h2 := congrArg List.length hd
    rw [List.length_append, h5] at h2
    exact h2
  apply h
  have h2 := congrArg (List.drop stage.data.length) hd
  rw [List.drop_left] at h2
  rw [show t.data.length - 5 = stage.data.length by omega]
  exact h2.symm

/-- Single-call specification of the Butter metadata mutation: it
succeeds, appends the stage name to `stages_completed` only when not
already present, overwrites the `"<stage>_info"` entry, and touches no
other key. -/
theorem updateDocumentMetadata_spec (m : List (String × JValue)) (stage : String)
    (info : JValue) (ss : List JValue)
    (hss : jGet m "stages_completed" = some (JValue.arr ss) ∨
           (jGet m "stages_completed" = none ∧ ss = [])) :
    ∃ m1, updateDocumentMetadata m stage info = Except.ok m1 ∧
      jGet m1 "stages_completed" =
        some (JValue.arr (if jStrMem stage ss then ss else ss ++ [JValue.str stage])) ∧
      jGet m1 (stage ++ "_info") = some info ∧
      (∀ k, k ≠ "stages_completed" → k ≠ stage ++ "_info" → jGet m1 k = jGet m k) := by
  have hne1 : stage ++ "_info" ≠ "stages_completed" :=
    append_info_ne stage "stages_completed" (by decide)
  rcases hss with hget | ⟨hget, hssnil⟩
  · have hhk : jHasKey m "stages_completed" = true := by
      rw [jHasKey_eq_isSome, hget]; rfl
    by_cases hmem : jStrMem stage ss = true
    · refine ⟨jSet m (stage ++ "_info") info, ?_, ?_, ?_, ?_⟩
      · simp only [updateDocumentMetadata, hhk, if_true, hget, hmem]
      · rw [jGet_jSet_ne m _ _ _ (Ne.symm hne1), hget, hmem]
        simp
      · exact jGet_jSet_self m _ info
      · intro k hk1 hk2
        exact jGet_jSet_ne m _ k info hk2
    · have hmem' : jStrMem stage ss = false := by
        revert hmem
        cases jStrMem stage ss <;> simp
      refine ⟨jSet (jSet m "stages_completed"
          (JValue.arr (ss ++ [JValue.str stage]))) (stage ++ "_info") info, ?_, ?_, ?_, ?_⟩
      · simp only [updateDocumentMetadata, hhk, if_true, hget, hmem']
        simp
      · rw [jGet_jSet_ne _ _ _ _ (Ne.symm hne1), jGet_jSet_self, hmem']
        simp
      · exact jGet_jSet_self _ _ info
      · intro k hk1 hk2
        rw [jGet_jSet_ne _ _ k _ hk2, jGet_jSet_ne _ _ k _ hk1]
  · subst hssnil
    have hhk : jHasKey m "stages_completed" = false := by
      rw [jHasKey_eq_isSome, hget]; rfl
    refine ⟨jSet (jSet (jSet m "stages_completed" (JValue.arr []))
        "stages_completed" (JValue.arr [JValue.str stage])) (stage ++ "_info") info,
        ?_, ?_, ?_, ?_⟩
    · simp only [updateDocumentMetadata, hhk, Bool.false_eq_true, if_false,
        jGet_jSet_self]
      simp [jStrMem]
    · rw [jGet_jSet_ne _ _ _ _ (Ne.symm hne1), jGet_jSet_self]
      simp [jStrMem]
    · exact jGet_jSet_self _ _ info
    · intro k hk1 hk2
      rw [jGet_jSet_ne _ _ k _ hk2, jGet_jSet_ne _ _ k _ hk1,
        jGet_jSet_ne _ _ k _ hk1]

/-- C7: recording the same stage twice is idempotent on the recorded
state, for both the Butter and the Jelly metadata updates: after the
second call `stages_completed` holds the stage name exactly once (the
list either stays as it was or grows by the single new name, and stays
duplicate-free), and the `"<stage>_info"` entry holds the second call's
info, overwritten rather than appended. -/
theorem c7_metadata_idempotent (m : List (String × JValue)) (stage : String)
    (info1 info2 : JValue) (ss : List JValue)
    (hss : jGet m "stages_completed" = some (JValue.arr ss) ∨
           (jGet m "stages_completed" = none ∧ ss = []))
    (hnodup : ss.Nodup) :
    ∃ m1 m2 ss1,
      updateDocumentMetadata m stage info1 = Except.ok m1 ∧
      updateDocumentMetadata m1 stage info2 = Except.ok m2 ∧
      jGet m1 "stages_completed" = some (JValue.arr ss1) ∧
      jGet m2 "stages_completed" = some (JValue.arr ss1) ∧
      (ss1 = ss ∨ ss1 = ss ++ [JValue.str stage]) ∧
      jStrCount stage ss1 = 1 ∧ ss1.Nodup ∧
      jGet m2 (stage ++ "_info") = some info2 ∧
      (∃ m2c, updateDocumentMetadataCleaning m1 stage info2 = Except.ok m2c ∧
        jGet m2c "stages_completed" = some (JValue.arr ss1) ∧
        jGet m2c (stage ++ "_info") = some info2) := by
  obtain ⟨m1, hm1, hm1s, hm1i, hm1f⟩ := updateDocumentMetadata_spec m stage info1 ss hss
  set ss1 := if jStrMem stage ss then ss else ss ++ [JValue.str stage] with hss1
  have hmem1 : jStrMem stage ss1 = true := by
    by_cases hmem : jStrMem stage ss = true
    · simp [hss1, hmem]
    · have hmem' : jStrMem stage ss = false := by
        revert hmem; cases jStrMem stage ss <;> simp
      simp [hss1, hmem', jStrMem_append, jStrMem]
  have hnodup1 : ss1.Nodup := by
    by_cases hmem : jStrMem stage ss = true
    · simpa [hss1, hmem] using hnodup
    · have hmem' : jStrMem stage ss = false := by
        revert hmem; cases jStrMem stage ss <;> simp
      have hnot : JValue.str stage ∉ ss := by
        intro hmm
        rw [(jStrMem_iff_mem stage ss).2 hmm] at hmem'
        exact absurd hmem' (by decide)
      simp only [hss1, hmem', Bool.false_eq_true, if_false]
      simpa [List.nodup_append] using ⟨hnodup, hnot⟩
  obtain ⟨m2, hm2, hm2s, hm2i, hm2f⟩ :=
    updateDocumentMetadata_spec m1 stage info2 ss1 (Or.inl hm1s)
  refine ⟨m1, m2, ss1, hm1, hm2, hm1s, ?_, ?_, ?_, hnodup1, hm2i, ?_⟩
  · rw [hm2s, hmem1]
    simp
  · by_cases hmem : jStrMem stage ss = true
    · exact Or.inl (by simp [hss1, hmem])
    · have hmem' : jStrMem stage ss = false := by
        revert hmem; cases jStrMem stage ss <;> simp
      exact Or.inr (by simp [hss1, hmem'])
  · have hp := jStrCount_pos stage ss1 ((jStrMem_iff_mem stage ss1).1 hmem1)
    have hl := jStrCount_le_one stage ss1 hnodup1
    omega
  · have hne2 : stage ++ "_info" ≠ "pipeline_complete" :=
      append_info_ne stage "pipeline_complete" (by decide)
    have hne3 : stage ++ "_info" ≠ "final_output_ready" :=
      append_info_ne stage "final_output_ready" (by decide)
    refine ⟨jSet (jSet m2 "pipeline_complete" (JValue.bool true))
      "final_output_ready" (JValue.bool true), ?_, ?_, ?_⟩
    · simp only [updateDocumentMetadataCleaning, hm2]
    · rw [jGet_jSet_ne _ _ _ _ (by decide), jGet_jSet_ne _ _ _ _ (by decide),
        hm2s, hmem1]
      simp
    · rw [jGet_jSet_ne _ _ _ _ hne3, jGet_jSet_ne _ _ _ _ hne2]
      exact hm2i

/-- Witness for C7: recording twice into an initially empty metadata
object. -/
theorem c7_metadata_idempotent_witness :
    ∃ m1 m2 ss1,
      updateDocumentMetadata [] "enhancement" (JValue.num 1) = Except.ok m1 ∧
      updateDocumentMetadata m1 "enhancement" (JValue.num 2) = Except.ok m2 ∧
      jGet m1 "stages_completed" = some (JValue.arr ss1) ∧
      jGet m2 "stages_completed" = some (JValue.arr ss1) ∧
      (ss1 = [] ∨ ss1 = [] ++ [JValue.str "enhancement"]) ∧
      jStrCount "enhancement" ss1 = 1 ∧ ss1.Nodup ∧
      jGet m2 ("enhancement" ++ "_info") = some (JValue.num 2) ∧
      (∃ m2c, updateDocumentMetadataCleaning m1 "enhancement" (JValue.num 2) = Except.ok m2c ∧
        jGet m2c "stages_completed" = some (JValue.arr ss1) ∧
        jGet m2c ("enhancement" ++ "_info") = some (JValue.num 2)) :=
  c7_metadata_idempotent [] "enhancement" (JValue.num 1) (JValue.num 2) []
    (Or.inr ⟨rfl, rfl⟩) (by simp)

/-- Key presence is membership among the field names. -/
theorem jHasKey_iff_mem_keys (l : List (String × JValue)) (k : String) :
    jHasKey l k = true ↔ k ∈ l.map Prod.fst := by
  induction l with
  | nil => simp [jHasKey]
  | cons kv rest ih =>
    by_cases h : kv.1 = k
    · simp [jHasKey, h]
    · simp [jHasKey, h, ih, Ne.symm h]

/-- Key presence distributes over append. -/
theorem jHasKey_append (l1 l2 : List (String × JValue)) (k : String) :
    jHasKey (l1 ++ l2) k = (jHasKey l1 k || jHasKey l2 k) := by
  induction l1 with
  | nil => simp [jHasKey]
  | cons kv rest ih => simp [jHasKey, ih, Bool.or_assoc]

/-- Setting an absent key appends the new binding. -/
theorem jSet_append_of_not_has (l : List (String × JValue)) (k : String)
    (v : JValue) (h : jHasKey l k = false) : jSet l k v = l ++ [(k, v)] := by
  induction l with
  | nil => rfl
  | cons kv rest ih =>
    simp only [jHasKey, Bool.or_eq_false_iff] at h
    have h1 : ¬ kv.1 = k := by simpa using h.1
    simp [jSet, h1, ih h.2]

/-- Setting a present key leaves the field names unchanged. -/
theorem jSet_keys_of_has (l : List (String × JValue)) (k : String) (v : JValue)
    (h : jHasKey l k = true) : (jSet l k v).map Prod.fst = l.map Prod.fst := by
  induction l with
  | nil => simp [jHasKey] at h
  | cons kv rest ih =>
    by_cases hk : kv.1 = k
    · simp [jSet, hk]
    · have hrest : jHasKey rest k = true := by
        simpa [jHasKey, hk] using h
      simp [jSet, hk, ih hrest]

/-- Popping a key from a duplicate-free dict removes it. -/
theorem jHasKey_jPop_self (l : List (String × JValue)) (k : String)
    (h : (l.map Prod.fst).Nodup) : jHasKey (jPop l k) k = false := by
  induction l with
  | nil => rfl
  | cons kv rest ih =>
    have htail : (rest.map Prod.fst).Nodup := (List.nodup_cons.1 (by simpa using h)).2
    by_cases hk : kv.1 = k
    · have hnot : k ∉ rest.map Prod.fst :=
        hk ▸ (List.nodup_cons.1 (by simpa using h)).1
      have : ¬ jHasKey rest k = true := fun hh => hnot ((jHasKey_iff_mem_keys rest k).1 hh)
      simp only [jPop, hk, if_pos]
      revert this
      cases jHasKey rest k <;> simp
    · simp [jPop, jHasKey, hk, ih htail]

/-- The dict built by inserting distinct string keys in order is the
accumulated pairs in order. -/
theorem dictOfPairsAux_zip (cs : List String) (cells : List JValue)
    (acc : List (String × JValue)) (hacc : ∀ c ∈ cs, jHasKey acc c = false)
    (hnodup : cs.Nodup) :
    dictOfPairsAux acc ((cs.map JValue.str).zip cells) =
      Except.ok (acc ++ cs.zip cells) := by
  induction cs generalizing cells acc with
  | nil => simp [dictOfPairsAux]
  | cons c cs' ih =>
    cases cells with
    | nil => simp [dictOfPairsAux]
    | cons cell cells' =>
      have hc := hacc c (by simp)
      have hacc' : ∀ c' ∈ cs', jHasKey (acc ++ [(c, cell)]) c' = false := by
        intro c' hc'
        have hne : c' ≠ c := fun he => (List.nodup_cons.1 hnodup).1 (he ▸ hc')
        simp [jHasKey_append, jHasKey, hacc c' (by simp [hc']), Ne.symm hne]
      have hrec := ih cells' (acc ++ [(c, cell)]) hacc' (List.Nodup.of_cons hnodup)
      simp only [List.map_cons, List.zip_cons_cons, dictOfPairsAux, jKeyOfValue]
      rw [jSet_append_of_not_has acc c cell hc]
      simpa [List.append_assoc] using hrec

/-- `dict(zip(columns, row))` over distinct string columns is the plain
positional zip. -/
theorem dictOfPairs_zip (cs : List String) (cells : List JValue)
    (hnodup : cs.Nodup) :
    dictOfPairs ((cs.map JValue.str).zip cells) = Except.ok (cs.zip cells) := by
  have := dictOfPairsAux_zip cs cells [] (fun c _ => rfl) hnodup
  simpa [dictOfPairs] using this

/-- The per-row conversion agrees with the spec-side row reshaping when
the columns are distinct strings. -/
theorem convertRow_spec (cs : List String) (r : JValue) (hnodup : cs.Nodup) :
    convertRow (JValue.arr (cs.map JValue.str)) r =
      Except.ok (reshapeRowSpec cs r) := by
  cases r with
  | arr cells =>
    by_cases hl : cells.length = cs.length
    · simp [convertRow, pyLen, pyIterElems, hl, reshapeRowSpec,
        dictOfPairs_zip cs cells hnodup]
    · simp [convertRow, pyLen, pyIterElems, hl, reshapeRowSpec]
  | null => rfl
  | bool b => rfl
  | num n => rfl
  | str s => rfl
  | obj fs => rfl

/-- Row-by-row conversion of a whole row list. -/
theorem convertRows_spec (cs : List String) (rs : List JValue)
    (hnodup : cs.Nodup) :
    convertRows (JValue.arr (cs.map JValue.str)) rs =
      Except.ok (rs.map (reshapeRowSpec cs)) := by
  induction rs with
  | nil => rfl
  | cons r rest ih =>
    rw [convertRows, convertRow_spec cs r hnodup, ih]
    simp

/-- C9: on a table of shape `{columns: cs, rows: rs}` with distinct
column names, the reshaper zips each row positionally against the
columns, passes rows of mismatched length through unchanged, and drops
the `columns` entry. -/
theorem c9_reshape_zip (cs : List String) (rs : List JValue)
    (hnodup : cs.Nodup) :
    convertTable (JValue.obj
        [("columns", JValue.arr (cs.map JValue.str)), ("rows", JValue.arr rs)]) =
      Except.ok (JValue.obj [("rows", JValue.arr (rs.map (reshapeRowSpec cs)))]) := by
  simp [convertTable, jHasKey, jGet, pyIterElems, convertRows_spec cs rs hnodup,
    jSet, jPop]

/-- Witness for C9: the spec's concrete example
`reshape({columns:["A","B"], rows:[["1","2"]]})`. -/
theorem c9_reshape_zip_witness :
    convertTable (JValue.obj
        [("columns", JValue.arr [JValue.str "A", JValue.str "B"]),
         ("rows", JValue.arr [JValue.arr [JValue.str "1", JValue.str "2"]])]) =
      Except.ok (JValue.obj [("rows",
        JValue.arr [JValue.obj [("A", JValue.str "1"), ("B", JValue.str "2")]])]) := by
  have h := c9_reshape_zip ["A", "B"] [JValue.arr [JValue.str "1", JValue.str "2"]]
    (by decide)
  simpa [reshapeRowSpec] using h

/-- C10: re-running the table reshaper on its own output changes
nothing: conversion removes the `columns` key, so a second application
takes the pass-through branch (and an error from the first application
propagates unchanged). The hypothesis states that the top-level field
names are distinct, which every value standing for a Python dict
satisfies. -/
theorem c10_convert_idempotent (t : JValue) (h : topKeysNodup t) :
    (convertTable t).bind convertTable = convertTable t := by
  cases t with
  | obj fields =>
    by_cases hc : jHasKey fields "columns" = false
    · have he : convertTable (JValue.obj fields) = Except.ok (JValue.obj fields) := by
        simp [convertTable, hc]
      rw [he]
      exact he
    · by_cases hr : jHasKey fields "rows" = false
      · have he : convertTable (JValue.obj fields) = Except.ok (JValue.obj fields) := by
          simp [convertTable, hr]
        rw [he]
        exact he
      · have hc' : jHasKey fields "columns" = true := by
          revert hc; cases jHasKey fields "columns" <;> simp
        have hr' : jHasKey fields "rows" = true := by
          revert hr; cases jHasKey fields "rows" <;> simp
        have hcond : ¬ (jHasKey fields "columns" = false ∨ jHasKey fields "rows" = false) := by
          simp [hc', hr']
        cases hrows : pyIterElems ((jGet fields "rows").getD JValue.null) with
        | error e =>
          have he : convertTable (JValue.obj fields) = Except.error e := by
            simp [convertTable, hcond, hrows]
          rw [he]
          rfl
        | ok rowList =>
          cases hconv : convertRows ((jGet fields "columns").getD JValue.null) rowList with
          | error e =>
            have he : convertTable (JValue.obj fields) = Except.error e := by
              simp [convertTable, hcond, hrows, hconv]
            rw [he]
            rfl
          | ok converted =>
            have he : convertTable (JValue.obj fields) = Except.ok (JValue.obj
                (jPop (jSet fields "rows" (JValue.arr converted)) "columns")) := by
              simp [convertTable, hcond, hrows, hconv]
            have hkeys : ((jSet fields "rows" (JValue.arr converted)).map Prod.fst).Nodup := by
              rw [jSet_keys_of_has fields "rows" (JValue.arr converted) hr']
              exact h
            have hnone : jHasKey (jPop (jSet fields "rows" (JValue.arr converted)) "columns")
                "columns" = false :=
              jHasKey_jPop_self _ "columns" hkeys
            rw [he]
            show convertTable (JValue.obj (jPop (jSet fields "rows" (JValue.arr converted))
              "columns")) = _
            simp [convertTable, hnone]
  | null => rfl
  | bool b => rfl
  | num n => rfl
  | str s => rfl
  | arr xs => rfl

/-- Witness for C10 at a concrete table. -/
theorem c10_convert_idempotent_witness :
    (convertTable (JValue.obj [("columns", JValue.arr [JValue.str "A"]),
        ("rows", JValue.arr [JValue.arr [JValue.str "1"]])])).bind convertTable =
      convertTable (JValue.obj [("columns", JValue.arr [JValue.str "A"]),
        ("rows", JValue.arr [JValue.arr [JValue.str "1"]])]) :=
  c10_convert_idempotent
    (JValue.obj [("columns", JValue.arr [JValue.str "A"]),
      ("rows", JValue.arr [JValue.arr [JValue.str "1"]])])
    (by show (["columns", "rows"] : List String).Nodup; decide)

/-- The full-range slice is the whole text. -/
theorem pySlice_whole (l : List Char) : pySlice l 0 l.length = l := by
  simp [pySlice]

/-- Length of an in-bounds slice. -/
theorem pySlice_length (l : List Char) (s e : Nat) (h1 : s ≤ e)
    (h2 : e ≤ l.length) : (pySlice l s e).length = e - s := by
  simp only [pySlice, List.length_take, List.length_drop]
  omega

/-- Adjacent slices concatenate. -/
theorem pySlice_append (l : List Char) (s e f : Nat) (h1 : s ≤ e) (h2 : e ≤ f) :
    pySlice l s e ++ pySlice l e f = pySlice l s f := by
  unfold pySlice
  rw [show l.drop e = (l.drop s).drop (e - s) by
    rw [List.drop_drop]; congr 1; omega]
  rw [show f - s = (e - s) + (f - e) by omega, List.take_add]

/-- An element of an in-bounds slice is the content element at the
shifted offset. -/
theorem getD_pySlice (l : List Char) (s e m : Nat) (d : Char)
    (h1 : m < e - s) : (pySlice l s e).getD m d = l.getD (s + m) d := by
  rw [List.getD_eq_getElem?_getD, List.getD_eq_getElem?_getD]
  unfold pySlice
  rw [List.getElem?_take, if_pos h1, List.getElem?_drop]

/-- An in-bounds `getD` is a member of the list. -/
theorem getD_mem_of_lt {α : Type} (l : List α) (m : Nat) (d : α)
    (h : m < l.length) : l.getD m d ∈ l := by
  rw [List.getD_eq_getElem?_getD, List.getElem?_eq_getElem h]
  exact List.getElem_mem h

/-- `split2` never returns the empty list of parts. -/
theorem split2_ne_nil (a b : Char) (l : List Char) : split2 a b l ≠ [] := by
  have H : ∀ (n : Nat) (l : List Char), l.length ≤ n → split2 a b l ≠ [] := by
    intro n
    induction n with
    | zero =>
      intro l hl
      have : l = [] := List.length_eq_zero.1 (Nat.le_zero.1 hl)
      subst this
      simp [split2]
    | succ n ih =>
      intro l hl
      cases l with
      | nil => simp [split2]
      | cons c l' =>
        cases l' with
        | nil => simp [split2]
        | cons d rest =>
          by_cases hcd : c = a ∧ d = b
          · simp [split2, hcd]
          · simp only [split2, if_neg hcd]
            have hne := ih (d :: rest) (by simpa using Nat.le_of_succ_le_succ hl)
            cases hS : split2 a b (d :: rest) with
            | nil => exact absurd hS hne
            | cons p ps => simp
  exact H l.length l le_rfl

/-- Prepending a character to the first part prepends it to the join. -/
theorem join2_cons_head (a b c : Char) (p : List Char) (ps : List (List Char)) :
    join2 a b ((c :: p) :: ps) = c :: join2 a b (p :: ps) := by
  cases ps with
  | nil => rfl
  | cons q ps' => rfl

/-- Joining the parts of a split reproduces the original text. -/
theorem join2_split2 (a b : Char) (l : List Char) :
    join2 a b (split2 a b l) = l := by
  have H : ∀ (n : Nat) (l : List Char), l.length ≤ n →
      join2 a b (split2 a b l) = l := by
    intro n
    induction n with
    | zero =>
      intro l hl
      have : l = [] := List.length_eq_zero.1 (Nat.le_zero.1 hl)
      subst this
      rfl
    | succ n ih =>
      intro l hl
      cases l with
      | nil => rfl
      | cons c l' =>
        cases l' with
        | nil => rfl
        | cons d rest =>
          by_cases hcd : c = a ∧ d = b
          · have hrec := ih rest (by simp at hl; omega)
            simp only [split2, if_pos hcd]
            cases hS : split2 a b rest with
            | nil => exact absurd hS (split2_ne_nil a b rest)
            | cons p ps =>
              rw [hS] at hrec
              simp only [join2]
              rw [hrec, hcd.1, hcd.2]
              rfl
          · have hrec := ih (d :: rest) (by simp at hl ⊢; omega)
            simp only [split2, if_neg hcd]
            cases hS : split2 a b (d :: rest) with
            | nil => exact absurd hS (split2_ne_nil a b (d :: rest))
            | cons p ps =>
              rw [hS] at hrec
              rw [join2_cons_head, hrec]
  exact H l.length l le_rfl

/-- Length of a join with at least two parts. -/
theorem join2_length_cons (a b : Char) (p q : List Char) (ps : List (List Char)) :
    (join2 a b (p :: q :: ps)).length = p.length + 2 + (join2 a b (q :: ps)).length := by
  simp only [join2, List.length_append, List.length_cons]
  omega

/-- The first paragraph of the remaining list starts at offset zero. -/
theorem parStart_zero (ps : List (List Char)) : parStart ps 0 = 0 := by
  simp [parStart]

/-- Offset of a later paragraph relative to a cons. -/
theorem parStart_cons_succ (p : List Char) (ps : List (List Char)) (k : Nat) :
    parStart (p :: ps) (k + 1) = p.length + 2 + parStart ps k := by
  simp [parStart, List.take_succ_cons]

/-- Stripping decomposes a text into whitespace margins around the
stripped core. -/
theorem pyStrip_decomp (l : List Char) :
    ∃ x y, l = x ++ pyStrip l ++ y ∧ (∀ c ∈ x, isPySpace c = true) ∧
      (∀ c ∈ y, isPySpace c = true) := by
  refine ⟨l.takeWhile isPySpace,
    ((l.dropWhile isPySpace).reverse.takeWhile isPySpace).reverse, ?_, ?_, ?_⟩
  · have h1 := List.takeWhile_append_dropWhile isPySpace l
    have h2 := List.takeWhile_append_dropWhile isPySpace (l.dropWhile isPySpace).reverse
    have h3 := congrArg List.reverse h2
    rw [List.reverse_append, List.reverse_reverse] at h3
    conv_lhs => rw [← h1, ← h3]
    simp [pyStrip, List.append_assoc]
  · exact fun c hc => List.mem_takeWhile_imp hc
  · intro c hc
    rw [List.mem_reverse] at hc
    exact List.mem_takeWhile_imp hc

/-- Stripping a slice whose ends avoid the protected interval yields a
slice whose ends avoid it too: the interval's delimiting characters are
not whitespace, so the stripped margins cannot reach into it. -/
theorem pyStrip_slice_ok (content : List Char) (ts te : Nat)
    (hts : isPySpace (content.getD ts ' ') = false)
    (hte : isPySpace (content.getD (te - 1) ' ') = false)
    (hlt : ts < te) (s e : Nat) (hse : s ≤ e) (heL : e ≤ content.length)
    (hs : sideOK ts te s) (he : sideOK ts te e) :
    ∃ s2 e2, s ≤ s2 ∧ s2 ≤ e2 ∧ e2 ≤ e ∧
      pyStrip (pySlice content s e) = pySlice content s2 e2 ∧
      sideOK ts te s2 ∧ sideOK ts te e2 := by
  obtain ⟨x, y, hdec, hx, hy⟩ := pyStrip_decomp (pySlice content s e)
  set m := pyStrip (pySlice content s e) with hm
  have hlen : (pySlice content s e).length = e - s := pySlice_length content s e hse heL
  have hsum : x.length + (m.length + y.length) = e - s := by
    have h := congrArg List.length hdec
    simpa [List.length_append, hlen] using h.symm
  have hmid : m = pySlice content (s + x.length) (s + x.length + m.length) := by
    have hdrop : (pySlice content s e).drop x.length = m ++ y := by
      rw [hdec, List.append_assoc, List.drop_left]
    have htake : m = ((pySlice content s e).drop x.length).take m.length := by
      rw [hdrop, List.take_left]
    conv_lhs => rw [htake]
    unfold pySlice
    rw [List.drop_take, List.drop_drop, List.take_take]
    rw [show m.length ⊓ (e - s - x.length) = m.length by omega,
      show s + x.length + m.length - (s + x.length) = m.length by omega]
  refine ⟨s + x.length, s + x.length + m.length,
    by omega, by omega, by omega, hmid, ?_, ?_⟩
  · rcases he with he1 | he2
    · exact Or.inl (by omega)
    · rcases hs with hs1 | hs2
      · by_cases hcon : s + x.length ≤ ts
        · exact Or.inl hcon
        · exfalso
          push_neg at hcon
          have hm1 : ts - s < e - s := by omega
          have hg : (pySlice content s e).getD (ts - s) ' ' = content.getD ts ' ' := by
            rw [getD_pySlice content s e (ts - s) ' ' hm1,
              show s + (ts - s) = ts by omega]
          have hxm : (pySlice content s e).getD (ts - s) ' ' = x.getD (ts - s) ' ' := by
            rw [hdec, List.append_assoc]
            exact List.getD_append x (m ++ y) ' ' (ts - s) (by omega)
          have hmem : x.getD (ts - s) ' ' ∈ x :=
            getD_mem_of_lt x (ts - s) ' ' (by omega)
          have hsp := hx _ hmem
          rw [← hxm, hg, hts] at hsp
          exact absurd hsp (by decide)
      · exact Or.inr (by omega)
  · rcases he with he1 | he2
    · exact Or.inl (by omega)
    · rcases hs with hs1 | hs2
      · by_cases hcon : te ≤ s + x.length + m.length
        · exact Or.inr hcon
        · exfalso
          push_neg at hcon
          have hm1 : te - 1 - s < e - s := by omega
          have hg : (pySlice content s e).getD (te - 1 - s) ' ' = content.getD (te - 1) ' ' := by
            rw [getD_pySlice content s e (te - 1 - s) ' ' hm1,
              show s + (te - 1 - s) = te - 1 by omega]
          have hym : (pySlice content s e).getD (te - 1 - s) ' ' =
              y.getD (te - 1 - s - x.length - m.length) ' ' := by
            rw [hdec, List.append_assoc,
              List.getD_append_right x (m ++ y) ' ' (te - 1 - s) (by omega),
              List.getD_append_right m y ' ' (te - 1 - s - x.length) (by omega)]
          have hmem : y.getD (te - 1 - s - x.length - m.length) ' ' ∈ y :=
            getD_mem_of_lt y _ ' ' (by omega)
          have hsp := hy _ hmem
          rw [← hym, hg, hte] at hsp
          exact absurd hsp (by decide)
      · exact Or.inr (by omega)

/-- Flushing the current chunk preserves well-locatedness of the chunk
list. -/
theorem flush_ok (content : List Char) (ts te : Nat)
    (hts : isPySpace (content.getD ts ' ') = false)
    (hte : isPySpace (content.getD (te - 1) ' ') = false)
    (hlt : ts < te) (st : ChunkState) (pos : Nat)
    (hchunks : chunksOK content ts te st.chunks)
    (hcur : curOK content ts te pos st.cur) :
    chunksOK content ts te (flushIfNonempty st) := by
  unfold flushIfNonempty
  by_cases hne : pyStrip st.cur ≠ []
  · rw [if_pos hne]
    intro c hc
    rcases List.mem_append.1 hc with hc1 | hc2
    · exact hchunks c hc1
    · have hc2' : c = pyStrip st.cur := by simpa using hc2
      subst hc2'
      rcases hcur with hnil | ⟨s, h1, h2, h3, h4, h5, h6⟩
      · rw [hnil] at hne
        simp [pyStrip] at hne
      · obtain ⟨s2, e2, hs2, hs2e2, he2, heq, hok1, hok2⟩ :=
          pyStrip_slice_ok content ts te hts hte hlt s (pos - 2) h1 h3 h5 h6
        rw [h4, heq]
        exact ⟨s2, e2, hs2e2, by omega, rfl, hok1, hok2⟩
  · rw [if_neg hne]
    exact hchunks

/-- One sentence-fallback step preserves the chunk invariants: the
sentence is the slice starting at `spos`, both its ends avoid the
protected interval, and the step leaves every emitted chunk and the new
buffer well-located. -/
theorem sentenceStep_ok (content : List Char) (maxTokens ts te : Nat)
    (hts : isPySpace (content.getD ts ' ') = false)
    (hte : isPySpace (content.getD (te - 1) ' ') = false)
    (hlt : ts < te) (st : ChunkState) (spos : Nat) (sen : List Char)
    (hchunks : chunksOK content ts te st.chunks)
    (hcur : curOK content ts te spos st.cur)
    (hslice : pySlice content spos (spos + sen.length) = sen)
    (hlenOK : sen = [] ∨ spos + sen.length ≤ content.length)
    (hsideL : sideOK ts te spos) (hsideR : sideOK ts te (spos + sen.length))
    (hsep : st.cur ≠ [] → pySlice content (spos - 2) spos = ['.', ' ']) :
    chunksOK content ts te (sentenceStep maxTokens st sen).chunks ∧
    curOK content ts te (spos + sen.length + 2) (sentenceStep maxTokens st sen).cur := by
  have hfresh : sen ≠ [] → curOK content ts te (spos + sen.length + 2) sen := by
    intro hne
    have hbound : spos + sen.length ≤ content.length := by
      rcases hlenOK with h | h
      · exact absurd h hne
      · exact h
    refine Or.inr ⟨spos, ?_, by omega, ?_, ?_, hsideL, ?_⟩
    · rw [Nat.add_sub_cancel]; omega
    · rw [Nat.add_sub_cancel]; exact hbound
    · rw [Nat.add_sub_cancel]; exact hslice.symm
    · rw [Nat.add_sub_cancel]; exact hsideR
  have hfresh' : curOK content ts te (spos + sen.length + 2) sen := by
    by_cases hne : sen = []
    · exact Or.inl hne
    · exact hfresh hne
  simp only [sentenceStep]
  by_cases hbig : st.curTok + estimateTokens sen > maxTokens
  · rw [if_pos hbig]
    exact ⟨flush_ok content ts te hts hte hlt st spos hchunks hcur, hfresh'⟩
  · rw [if_neg hbig]
    refine ⟨hchunks, ?_⟩
    by_cases hnil : st.cur = []
    · rw [if_pos hnil]
      exact hfresh'
    · rw [if_neg hnil]
      have hsep2 := hsep hnil
      rcases hcur with h | ⟨s, h1, h2, h3, h4, h5, h6⟩
      · exact absurd h hnil
      · have hsposle : spos ≤ content.length := by
          have hl := congrArg List.length hsep2
          simp only [pySlice, List.length_take, List.length_drop,
            List.length_cons, List.length_nil] at hl
          omega
        have hbound : spos + sen.length ≤ content.length := by
          rcases hlenOK with hx | hx
          · subst hx; simpa using hsposle
          · exact hx
        refine Or.inr ⟨s, ?_, by omega, ?_, ?_, h5, ?_⟩
        · rw [Nat.add_sub_cancel]; omega
        · rw [Nat.add_sub_cancel]; exact hbound
        · rw [Nat.add_sub_cancel]
          show st.cur ++ '.' :: ' ' :: sen = pySlice content s (spos + sen.length)
          conv_lhs => rw [h4,
            show ('.' :: ' ' :: sen : List Char) = ['.', ' '] ++ sen from rfl,
            ← hsep2, ← hslice]
          rw [pySlice_append content (spos - 2) spos (spos + sen.length)
            (by omega) (by omega)]
          exact pySlice_append content s (spos - 2) (spos + sen.length) h1 (by omega)
        · rw [Nat.add_sub_cancel]; exact hsideR

/-- The sentence-fallback fold preserves the chunk invariants: starting
from position `spos` whose remaining text begins with the joined
sentences, all emitted chunks stay well-located, and the final buffer
is the slice ending where the sentences end. -/
theorem sentence_fold_ok (content : List Char) (maxTokens ts te : Nat)
    (hts : isPySpace (content.getD ts ' ') = false)
    (hte : isPySpace (content.getD (te - 1) ' ') = false)
    (hlt : ts < te) :
    ∀ (ss : List (List Char)) (spos : Nat) (st : ChunkState),
    (∃ tail, content.drop spos = join2 '.' ' ' ss ++ tail) →
    (ss ≠ [] → (spos + (join2 '.' ' ' ss).length ≤ ts ∨ te ≤ spos)) →
    chunksOK content ts te st.chunks →
    curOK content ts te spos st.cur →
    (st.cur ≠ [] → ss ≠ [] → pySlice content (spos - 2) spos = ['.', ' ']) →
    chunksOK content ts te (ss.foldl (sentenceStep maxTokens) st).chunks ∧
    curOK content ts te (sentFoldEnd spos ss + 2)
      (ss.foldl (sentenceStep maxTokens) st).cur := by
  intro ss
  induction ss with
  | nil =>
    intro spos st hpre hzone hchunks hcur hsep
    refine ⟨hchunks, ?_⟩
    have hE : sentFoldEnd spos [] + 2 - 2 = spos - 2 := by
      simp [sentFoldEnd]
    rcases hcur with hnil | ⟨s, h1, h2, h3, h4, h5, h6⟩
    · exact Or.inl hnil
    · refine Or.inr ⟨s, ?_, ?_, ?_, ?_, h5, ?_⟩
      · rw [hE]; exact h1
      · omega
      · rw [hE]; exact h3
      · rw [hE]; exact h4
      · rw [hE]; exact h6
  | cons sen ss' ih =>
    intro spos st hpre hzone hchunks hcur hsep
    obtain ⟨tail, hdrop⟩ := hpre
    have hzone' := hzone (by simp)
    have hpre2 : ∃ rest2, content.drop spos = sen ++ rest2 := by
      cases ss' with
      | nil => exact ⟨tail, by simpa [join2] using hdrop⟩
      | cons q ps' =>
        refine ⟨'.' :: ' ' :: (join2 '.' ' ' (q :: ps') ++ tail), ?_⟩
        rw [hdrop]
        simp [join2]
    obtain ⟨rest2, hdrop2⟩ := hpre2
    have hlen2 : content.length - spos = sen.length + rest2.length := by
      have h := congrArg List.length hdrop2
      simpa [List.length_drop, List.length_append] using h
    have hslice_sen : pySlice content spos (spos + sen.length) = sen := by
      unfold pySlice
      rw [hdrop2, show spos + sen.length - spos = sen.length by omega, List.take_left]
    have hzone_sen : spos + sen.length ≤ ts ∨ te ≤ spos := by
      rcases hzone' with hz | hz
      · left
        have hle : sen.length ≤ (join2 '.' ' ' (sen :: ss')).length := by
          cases ss' with
          | nil => simp [join2]
          | cons q ps' => rw [join2_length_cons]; omega
        omega
      · right; exact hz
    have hsideL : sideOK ts te spos := by
      rcases hzone_sen with hz | hz
      · exact Or.inl (by omega)
      · exact Or.inr hz
    have hsideR : sideOK ts te (spos + sen.length) := by
      rcases hzone_sen with hz | hz
      · exact Or.inl hz
      · exact Or.inr (by omega)
    have hlenOK : sen = [] ∨ spos + sen.length ≤ content.length := by
      by_cases hne : sen = []
      · exact Or.inl hne
      · right
        have : 1 ≤ sen.length := by
          cases sen with
          | nil => exact absurd rfl hne
          | cons c cs => simp
        omega
    have hstep := sentenceStep_ok content maxTokens ts te hts hte hlt st spos sen
      hchunks hcur hslice_sen hlenOK hsideL hsideR
      (fun hcurne => hsep hcurne (by simp))
    have hdrop' : ∃ tail', content.drop (spos + sen.length + 2) =
        join2 '.' ' ' ss' ++ tail' := by
      cases ss' with
      | nil => exact ⟨content.drop (spos + sen.length + 2), by simp [join2]⟩
      | cons q ps' =>
        refine ⟨tail, ?_⟩
        have h0 : content.drop spos =
            (sen ++ ['.', ' ']) ++ (join2 '.' ' ' (q :: ps') ++ tail) := by
          rw [hdrop]
          simp [join2]
        have h1 : content.drop (spos + sen.length + 2) =
            (content.drop spos).drop (sen.length + 2) := by
          rw [List.drop_drop]
          congr 1
        rw [h1, h0, show sen.length + 2 = (sen ++ ['.', ' ']).length by simp,
          List.drop_left]
    have hzone2 : ss' ≠ [] →
        ((spos + sen.length + 2) + (join2 '.' ' ' ss').length ≤ ts ∨
          te ≤ spos + sen.length + 2) := by
      intro hne
      rcases hzone' with hz | hz
      · left
        cases ss' with
        | nil => exact absurd rfl hne
        | cons q ps' =>
          rw [join2_length_cons] at hz
          omega
      · right
        omega
    have hsep' : (sentenceStep maxTokens st sen).cur ≠ [] → ss' ≠ [] →
        pySlice content (spos + sen.length + 2 - 2) (spos + sen.length + 2) =
          ['.', ' '] := by
      intro _ hne
      cases ss' with
      | nil => exact absurd rfl hne
      | cons q ps' =>
        have h1 : content.drop (spos + sen.length) =
            '.' :: ' ' :: (join2 '.' ' ' (q :: ps') ++ tail) := by
          rw [show spos + sen.length = spos + sen.length from rfl,
            ← List.drop_drop sen.length spos content, hdrop,
            show join2 '.' ' ' (sen :: q :: ps') =
              sen ++ '.' :: ' ' :: join2 '.' ' ' (q :: ps') from rfl,
            List.append_assoc, List.drop_left]
          rfl
        rw [Nat.add_sub_cancel]
        unfold pySlice
        rw [h1, show spos + sen.length + 2 - (spos + sen.length) = 2 by omega]
        rfl
    rw [List.foldl_cons]
    have hrec := ih (spos + sen.length + 2) (sentenceStep maxTokens st sen)
      hdrop' hzone2 hstep.1 hstep.2 hsep'
    have hEnd : sentFoldEnd spos (sen :: ss') =
        sentFoldEnd (spos + sen.length + 2) ss' := by
      cases ss' with
      | nil =>
        show spos + (join2 '.' ' ' [sen]).length = spos + sen.length + 2 - 2
        simp [join2]
      | cons q ps' =>
        show spos + (join2 '.' ' ' (sen :: q :: ps')).length =
          spos + sen.length + 2 + (join2 '.' ' ' (q :: ps')).length
        rw [join2_length_cons]
        omega
    rw [hEnd]
    exact hrec

/-- One paragraph step preserves the chunk invariants. The zone
hypothesis is needed only when the paragraph overflows the budget by
itself (sentence fallback): the protected table never lies in such a
paragraph, so the whole paragraph sits on one side of the interval. -/
theorem paragraphStep_ok (content : List Char) (maxTokens ts te : Nat)
    (hts : isPySpace (content.getD ts ' ') = false)
    (hte : isPySpace (content.getD (te - 1) ' ') = false)
    (hlt : ts < te) (st : ChunkState) (pos : Nat) (p : List Char)
    (hchunks : chunksOK content ts te st.chunks)
    (hcur : curOK content ts te pos st.cur)
    (hslice : pySlice content pos (pos + p.length) = p)
    (hpre2 : ∃ rest2, content.drop pos = p ++ rest2)
    (hlenOK : p = [] ∨ pos + p.length ≤ content.length)
    (hsideL : sideOK ts te pos) (hsideR : sideOK ts te (pos + p.length))
    (hzoneP : estimateTokens p > maxTokens → (pos + p.length ≤ ts ∨ te ≤ pos))
    (hsep : st.cur ≠ [] → pySlice content (pos - 2) pos = ['\n', '\n']) :
    chunksOK content ts te (paragraphStep maxTokens st p).chunks ∧
    curOK content ts te (pos + p.length + 2) (paragraphStep maxTokens st p).cur := by
  have hfresh' : curOK content ts te (pos + p.length + 2) p := by
    by_cases hne : p = []
    · exact Or.inl hne
    · have hbound : pos + p.length ≤ content.length := by
        rcases hlenOK with h | h
        · exact absurd h hne
        · exact h
      refine Or.inr ⟨pos, ?_, by omega, ?_, ?_, hsideL, ?_⟩
      · rw [Nat.add_sub_cancel]; omega
      · rw [Nat.add_sub_cancel]; exact hbound
      · rw [Nat.add_sub_cancel]; exact hslice.symm
      · rw [Nat.add_sub_cancel]; exact hsideR
  have hflush := flush_ok content ts te hts hte hlt st pos hchunks hcur
  simp only [paragraphStep]
  by_cases hbig : st.curTok + estimateTokens p > maxTokens
  · rw [if_pos hbig]
    by_cases hover : estimateTokens p > maxTokens
    · rw [if_pos hover]
      have hzone := hzoneP hover
      obtain ⟨rest2, hdrop2⟩ := hpre2
      have hfold := sentence_fold_ok content maxTokens ts te hts hte hlt
        (split2 '.' ' ' p) pos ⟨flushIfNonempty st, [], 0⟩
        ⟨rest2, by rw [join2_split2]; exact hdrop2⟩
        (fun _ => by rw [join2_split2]; exact hzone)
        hflush (Or.inl rfl) (fun hc _ => absurd rfl hc)
      have hE : sentFoldEnd pos (split2 '.' ' ' p) = pos + p.length := by
        cases hS : split2 '.' ' ' p with
        | nil => exact absurd hS (split2_ne_nil _ _ _)
        | cons a as =>
          show pos + (join2 '.' ' ' (a :: as)).length = pos + p.length
          rw [← hS, join2_split2]
      rw [hE] at hfold
      exact hfold
    · rw [if_neg hover]
      exact ⟨hflush, hfresh'⟩
  · rw [if_neg hbig]
    refine ⟨hchunks, ?_⟩
    by_cases hnil : st.cur = []
    · rw [if_pos hnil]
      exact hfresh'
    · rw [if_neg hnil]
      have hsep2 := hsep hnil
      rcases hcur with h | ⟨s, h1, h2, h3, h4, h5, h6⟩
      · exact absurd h hnil
      · have hsposle : pos ≤ content.length := by
          have hl := congrArg List.length hsep2
          simp only [pySlice, List.length_take, List.length_drop,
            List.length_cons, List.length_nil] at hl
          omega
        have hbound : pos + p.length ≤ content.length := by
          rcases hlenOK with hx | hx
          · subst hx; simpa using hsposle
          · exact hx
        refine Or.inr ⟨s, ?_, by omega, ?_, ?_, h5, ?_⟩
        · rw [Nat.add_sub_cancel]; omega
        · rw [Nat.add_sub_cancel]; exact hbound
        · rw [Nat.add_sub_cancel]
          show st.cur ++ '\n' :: '\n' :: p = pySlice content s (pos + p.length)
          conv_lhs => rw [h4,
            show ('\n' :: '\n' :: p : List Char) = ['\n', '\n'] ++ p from rfl,
            ← hsep2, ← hslice]
          rw [pySlice_append content (pos - 2) pos (pos + p.length)
            (by omega) (by omega)]
          exact pySlice_append content s (pos - 2) (pos + p.length) h1 (by omega)
        · rw [Nat.add_sub_cancel]; exact hsideR

/-- The paragraph fold of `_chunk_content`, followed by the final
flush, produces only well-located chunks. -/
theorem paragraph_fold_ok (content : List Char) (maxTokens ts te : Nat)
    (hts : isPySpace (content.getD ts ' ') = false)
    (hte : isPySpace (content.getD (te - 1) ' ') = false)
    (hlt : ts < te) :
    ∀ (rest : List (List Char)) (pos : Nat) (st : ChunkState),
    content.drop pos = join2 '\n' '\n' rest →
    chunksOK content ts te st.chunks →
    curOK content ts te pos st.cur →
    restOK maxTokens ts te pos rest →
    (st.cur ≠ [] → rest ≠ [] → pySlice content (pos - 2) pos = ['\n', '\n']) →
    chunksOK content ts te
      (flushIfNonempty (rest.foldl (paragraphStep maxTokens) st)) := by
  intro rest
  induction rest with
  | nil =>
    intro pos st hdrop hchunks hcur hrest hsep
    exact flush_ok content ts te hts hte hlt st pos hchunks hcur
  | cons p rest' ih =>
    intro pos st hdrop hchunks hcur hrest hsep
    have hpre2 : ∃ rest2, content.drop pos = p ++ rest2 := by
      cases rest' with
      | nil => exact ⟨[], by simpa [join2] using hdrop⟩
      | cons q ps' =>
        exact ⟨'\n' :: '\n' :: join2 '\n' '\n' (q :: ps'), hdrop⟩
    obtain ⟨rest2, hdrop2⟩ := hpre2
    have hlen2 : content.length - pos = p.length + rest2.length := by
      have h := congrArg List.length hdrop2
      simpa [List.length_drop, List.length_append] using h
    have hslice_p : pySlice content pos (pos + p.length) = p := by
      unfold pySlice
      rw [hdrop2, show pos + p.length - pos = p.length by omega, List.take_left]
    have hlenOKp : p = [] ∨ pos + p.length ≤ content.length := by
      by_cases hne : p = []
      · exact Or.inl hne
      · right
        have : 1 ≤ p.length := by
          cases p with
          | nil => exact absurd rfl hne
          | cons c cs => simp
        omega
    have hsideL : sideOK ts te pos := by
      rcases hrest with hz | ⟨k, hk, hk1, hk2, hk3⟩
      · exact Or.inr hz
      · exact Or.inl (by omega)
    have hsideR : sideOK ts te (pos + p.length) := by
      rcases hrest with hz | ⟨k, hk, hk1, hk2, hk3⟩
      · exact Or.inr (by omega)
      · cases k with
        | zero =>
          rw [parStart_zero] at hk2
          simp only [List.getD_cons_zero] at hk2
          exact Or.inr (by omega)
        | succ k' =>
          rw [parStart_cons_succ] at hk1
          exact Or.inl (by omega)
    have hzoneP : estimateTokens p > maxTokens →
        (pos + p.length ≤ ts ∨ te ≤ pos) := by
      intro hover
      rcases hrest with hz | ⟨k, hk, hk1, hk2, hk3⟩
      · exact Or.inr hz
      · cases k with
        | zero =>
          simp only [List.getD_cons_zero] at hk3
          omega
        | succ k' =>
          rw [parStart_cons_succ] at hk1
          exact Or.inl (by omega)
    have hstep := paragraphStep_ok content maxTokens ts te hts hte hlt st pos p
      hchunks hcur hslice_p ⟨rest2, hdrop2⟩ hlenOKp hsideL hsideR hzoneP
      (fun hc => hsep hc (by simp))
    have hdrop' : content.drop (pos + p.length + 2) = join2 '\n' '\n' rest' := by
      cases rest' with
      | nil =>
        have h0 : content.drop pos = p := by simpa [join2] using hdrop
        have h1 : content.drop (pos + p.length + 2) =
            (content.drop pos).drop (p.length + 2) := by
          rw [List.drop_drop]
          congr 1
        rw [h1, h0]
        exact List.drop_eq_nil_of_le (by omega)
      | cons q ps' =>
        have h0 : content.drop pos =
            (p ++ ['\n', '\n']) ++ join2 '\n' '\n' (q :: ps') := by
          rw [hdrop]
          simp [join2]
        have h1 : content.drop (pos + p.length + 2) =
            (content.drop pos).drop (p.length + 2) := by
          rw [List.drop_drop]
          congr 1
        rw [h1, h0, show p.length + 2 = (p ++ ['\n', '\n']).length by simp,
          List.drop_left]
    have hrest' : restOK maxTokens ts te (pos + p.length + 2) rest' := by
      rcases hrest with hz | ⟨k, hk, hk1, hk2, hk3⟩
      · exact Or.inl (by omega)
      · cases k with
        | zero =>
          rw [parStart_zero] at hk2
          simp only [List.getD_cons_zero] at hk2
          exact Or.inl (by omega)
        | succ k' =>
          refine Or.inr ⟨k', by simpa using hk, ?_, ?_, ?_⟩
          · rw [parStart_cons_succ] at hk1
            omega
          · rw [parStart_cons_succ] at hk2
            simp only [List.getD_cons_succ] at hk2
            omega
          · simpa using hk3
    have hsep' : (paragraphStep maxTokens st p).cur ≠ [] → rest' ≠ [] →
        pySlice content (pos + p.length + 2 - 2) (pos + p.length + 2) =
          ['\n', '\n'] := by
      intro _ hne
      cases rest' with
      | nil => exact absurd rfl hne
      | cons q ps' =>
        have h1 : content.drop (pos + p.length) =
            '\n' :: '\n' :: join2 '\n' '\n' (q :: ps') := by
          rw [← List.drop_drop p.length pos content, hdrop]
          show (p ++ '\n' :: '\n' :: join2 '\n' '\n' (q :: ps')).drop p.length =
            '\n' :: '\n' :: join2 '\n' '\n' (q :: ps')
          exact List.drop_left p _
        rw [Nat.add_sub_cancel]
        unfold pySlice
        rw [h1, show pos + p.length + 2 - (pos + p.length) = 2 by omega]
        rfl
    rw [List.foldl_cons]
    exact ih (pos + p.length + 2) (paragraphStep maxTokens st p)
      hdrop' hstep.1 hstep.2 hrest' hsep'

/-- C4: for a text containing a well-formed table (pipe or HTML
delimited) lying entirely inside paragraph `i`, with `maxTokens` large
enough that this paragraph's token estimate fits, every chunk returned
by `_chunk_content` is a slice of the original text neither of whose
boundaries falls strictly inside the table's character range. -/
theorem c4_table_protection (content : List Char) (maxTokens : Nat)
    (i ts te : Nat)
    (hi : i < (split2 '\n' '\n' content).length)
    (hts : parStart (split2 '\n' '\n' content) i ≤ ts)
    (hte : te ≤ parEnd (split2 '\n' '\n' content) i)
    (hspan : tableSpan content ts te)
    (hfit : estimateTokens ((split2 '\n' '\n' content).getD i []) ≤ maxTokens) :
    ∀ c ∈ chunkContent content maxTokens, ∃ s e,
      s ≤ e ∧ e ≤ content.length ∧ c = pySlice content s e ∧
      ¬ (ts < s ∧ s < te) ∧ ¬ (ts < e ∧ e < te) := by
  obtain ⟨hlt, hteL, hchars⟩ := hspan
  have htsp : isPySpace (content.getD ts ' ') = false := by
    rcases hchars with ⟨h1, h2⟩ | ⟨h1, h2⟩ <;> rw [h1] <;> decide
  have htep : isPySpace (content.getD (te - 1) ' ') = false := by
    rcases hchars with ⟨h1, h2⟩ | ⟨h1, h2⟩ <;> rw [h2] <;> decide
  unfold chunkContent
  by_cases hsmall : estimateTokens content ≤ maxTokens
  · rw [if_pos hsmall]
    intro c hc
    have hc' : c = content := by simpa using hc
    rw [hc']
    exact ⟨0, content.length, by omega, le_rfl, (pySlice_whole content).symm,
      by omega, by omega⟩
  · rw [if_neg hsmall]
    have hfold := paragraph_fold_ok content maxTokens ts te htsp htep hlt
      (split2 '\n' '\n' content) 0 ⟨[], [], 0⟩
      (by rw [List.drop_zero]; exact (join2_split2 '\n' '\n' content).symm)
      (fun c hc => absurd hc (List.not_mem_nil c))
      (Or.inl rfl)
      (Or.inr ⟨i, hi, by simpa using hts, by simpa [parEnd] using hte, hfit⟩)
      (fun hc => absurd rfl hc)
    intro c hc
    obtain ⟨s, e, h1, h2, h3, h4, h5⟩ := hfold c hc
    refine ⟨s, e, h1, h2, h3, ?_, ?_⟩
    · rcases h4 with h | h <;> omega
    · rcases h5 with h | h <;> omega

/-- Witness for C4: a two-paragraph text whose second paragraph is a
pipe table occupying characters 18 to 25; with `maxTokens = 503` the
text does not fit in one call (506 estimated tokens) but the table
paragraph does (501), so the chunker splits at the paragraph break. -/
theorem c4_table_protection_witness :
    tableSpan ("aaaaaaaaaaaaaaaa\n\n|x|\n|1|".toList) 18 25 ∧
    (∀ c ∈ chunkContent ("aaaaaaaaaaaaaaaa\n\n|x|\n|1|".toList) 503, ∃ s e,
      s ≤ e ∧ e ≤ ("aaaaaaaaaaaaaaaa\n\n|x|\n|1|".toList).length ∧
      c = pySlice ("aaaaaaaaaaaaaaaa\n\n|x|\n|1|".toList) s e ∧
      ¬ (18 < s ∧ s < 25) ∧ ¬ (18 < e ∧ e < 25)) :=
  ⟨by unfold tableSpan; decide,
    c4_table_protection ("aaaaaaaaaaaaaaaa\n\n|x|\n|1|".toList) 503 1 18 25
      (by decide) (by decide) (by decide) (by unfold tableSpan; decide)
      (by decide)⟩

end PBJ
